import Mathlib

/-!
# Verification of the `projectile_motion` trajectory integrator

This file gives a shallow embedding, over the real numbers, of the generator
`projectile_motion(v0, theta, mass, dt, include_drag)` from
`src/projectile_simulation.py`, and proves (or refutes) the specification
claims about it.

The Python generator is modelled as a state machine: `State` captures the
local variables `(vx, vy, x, y)` of the generator together with a
`terminated` flag recording that the generator has run to completion
(after which every further `next()` raises `StopIteration`, modelled as
`none`).  One `step` performs one full iteration of the `while True` loop up
to and including its `yield` and the state mutations of the same iteration:
it emits the sample yielded by that iteration and returns the updated state.
`run` iterates `step` a given number of times, collecting emitted samples.
-/

namespace ProjectileSim

/-- The parameters of `projectile_motion(v0, theta, mass, dt, include_drag)`. -/
structure Params where
  v0 : ℝ
  theta : ℝ
  mass : ℝ
  dt : ℝ
  include_drag : Bool

/-- `g = 9.81`, acceleration due to gravity (source line `g = 9.81`). -/
def grav : ℝ := 9.81

/-- `rho = 1.225 if include_drag else 0`, air density. -/
def rho (include_drag : Bool) : ℝ := if include_drag then 1.225 else 0

/-- `A = 0.045 if include_drag else 0`, cross-sectional area. -/
def crossA (include_drag : Bool) : ℝ := if include_drag then 0.045 else 0

/-- `C_d = 0.47 if include_drag else 0`, drag coefficient. -/
def C_d (include_drag : Bool) : ℝ := if include_drag then 0.47 else 0

/-- The mutable local state of the generator: velocities, position, and
whether the generator has finished (`break` executed / `StopIteration`). -/
structure State where
  vx : ℝ
  vy : ℝ
  x : ℝ
  y : ℝ
  terminated : Bool

/-- A sample yielded by the generator: the pair `(x, y)`. -/
abbrev Sample := ℝ × ℝ

/-- Initialization of the generator's locals:
`theta_rad = radians(theta)`, `vx = v0*cos(theta_rad)`,
`vy = v0*sin(theta_rad)`, `x = 0`, `y = 0`. -/
noncomputable def init (p : Params) : State :=
  let theta_rad := p.theta * (Real.pi / 180)
  { vx := p.v0 * Real.cos theta_rad
    vy := p.v0 * Real.sin theta_rad
    x := 0
    y := 0
    terminated := false }

/-- The velocity update at the end of a loop iteration (source lines 36-44):
`if include_drag and y > 0:` apply quadratic drag and gravity, `else:`
gravity only.  Operates on the post-commit state. -/
noncomputable def stepVel (p : Params) (s : State) : State :=
  if p.include_drag = true ∧ 0 < s.y then
    let v := Real.sqrt (s.vx ^ 2 + s.vy ^ 2)
    let drag_force := 0.5 * rho p.include_drag * crossA p.include_drag *
      C_d p.include_drag * v ^ 2
    let acceleration_drag := drag_force / p.mass
    { s with
      vx := s.vx - acceleration_drag / v * s.vx * p.dt
      vy := s.vy - (grav + acceleration_drag / v * s.vy) * p.dt }
  else
    { s with vy := s.vy - grav * p.dt }

/-- One full loop iteration of the generator, from the top of the
`while True` loop through its `yield` and the state updates belonging to the
same iteration.  On a terminated (exhausted) generator it emits nothing and
leaves the state unchanged (`StopIteration` on every later `next()`). -/
noncomputable def step (p : Params) (s : State) : Option Sample × State :=
  if s.terminated = true then (none, s)
  else
    let next_x := s.x + s.vx * p.dt
    let next_y := s.y + s.vy * p.dt
    if next_y < 0 then
      -- Interpolate to find the exact point where y crosses zero
      let t := -s.y / s.vy
      (some (s.x + s.vx * t, 0),
        { s with x := s.x + s.vx * t, y := 0, terminated := true })
    else
      (some (s.x, s.y), stepVel p { s with x := next_x, y := next_y })

/-- Iterate `step` `n` times, collecting the emitted samples in order. -/
noncomputable def run (p : Params) : ℕ → State → List Sample × State
  | 0, s => ([], s)
  | n + 1, s =>
    let r := step p s
    let rest := run p n r.2
    (r.1.toList ++ rest.1, rest.2)

/-- A state is reachable for parameters `p` when some number of `next()`
calls starting from the fresh generator leads to it. -/
def Reachable (p : Params) (s : State) : Prop :=
  ∃ n : ℕ, (run p n (init p)).2 = s

/-! Concrete parameter sets used below. -/

/-- Launch straight down: `projectile_motion(1, -90, 1, 1, False)`. -/
def pDown : Params := ⟨1, -90, 1, 1, false⟩

/-- Launch straight up: `projectile_motion(1, 90, 1, 1, False)`. -/
def pUp : Params := ⟨1, 90, 1, 1, false⟩

/-- Horizontal launch with drag enabled: `projectile_motion(1, 0, 1, 1, True)`. -/
def pFlatDrag : Params := ⟨1, 0, 1, 1, true⟩

/-- Non-physical construction parameters: `mass = 0` and `time_step = -1`. -/
def pBad : Params := ⟨1, 0, 0, -1, false⟩

/-- Upward launch with a negative time step, making the very first tentative
step cross the ground while `vy ≥ 0`. -/
def pAnom : Params := ⟨1, 90, 1, -1, false⟩

@[simp]
theorem run_zero (p : Params) (s : State) : run p 0 s = ([], s) := rfl

theorem run_succ (p : Params) (n : ℕ) (s : State) :
    run p (n + 1) s =
      ((step p s).1.toList ++ (run p n (step p s).2).1, (run p n (step p s).2).2) := rfl

theorem init_reachable (p : Params) : Reachable p (init p) := ⟨0, rfl⟩

/-! ## Basic lemmas about one step -/

theorem step_terminated (p : Params) (s : State) (h : s.terminated = true) :
    step p s = (none, s) := by
  simp [step, h]

theorem step_cross (p : Params) (s : State) (hterm : s.terminated = false)
    (h : s.y + s.vy * p.dt < 0) :
    step p s = (some (s.x + s.vx * (-s.y / s.vy), 0),
      { s with x := s.x + s.vx * (-s.y / s.vy), y := 0, terminated := true }) := by
  simp [step, hterm, h]

theorem step_normal (p : Params) (s : State) (hterm : s.terminated = false)
    (h : 0 ≤ s.y + s.vy * p.dt) :
    step p s = (some (s.x, s.y),
      stepVel p { s with x := s.x + s.vx * p.dt, y := s.y + s.vy * p.dt }) := by
  simp [step, hterm, not_lt.2 h]

theorem stepVel_gravity (p : Params) (s : State)
    (h : ¬(p.include_drag = true ∧ 0 < s.y)) :
    stepVel p s = { s with vy := s.vy - grav * p.dt } := by
  simp only [stepVel, if_neg h]

theorem stepVel_drag (p : Params) (s : State) (hd : p.include_drag = true)
    (hy : 0 < s.y) :
    stepVel p s =
      { s with
        vx := s.vx -
          (0.5 * 1.225 * 0.045 * 0.47 * Real.sqrt (s.vx ^ 2 + s.vy ^ 2) ^ 2 / p.mass) /
            Real.sqrt (s.vx ^ 2 + s.vy ^ 2) * s.vx * p.dt
        vy := s.vy -
          (grav + (0.5 * 1.225 * 0.045 * 0.47 * Real.sqrt (s.vx ^ 2 + s.vy ^ 2) ^ 2 / p.mass) /
              Real.sqrt (s.vx ^ 2 + s.vy ^ 2) * s.vy) * p.dt } := by
  simp [stepVel, rho, crossA, C_d, hd, hy]

/-- `stepVel` never changes position or the terminated flag. -/
theorem stepVel_preserves (p : Params) (s : State) :
    (stepVel p s).x = s.x ∧ (stepVel p s).y = s.y ∧
      (stepVel p s).terminated = s.terminated := by
  unfold stepVel
  split <;> simp

/-- An exhausted generator stays exhausted and emits nothing, any number of calls. -/
theorem run_of_terminated (p : Params) (n : ℕ) (s : State) (h : s.terminated = true) :
    run p n s = ([], s) := by
  induction n with
  | zero => rfl
  | succ n ih => rw [run_succ, step_terminated p s h]; simp [ih]

/-! ## Invariants of the run -/

/-- One step never moves `y` below `0`: a crossing step sets `y = 0` exactly,
a normal step commits only when `next_y ≥ 0`. -/
theorem step_y_nonneg (p : Params) (s : State) (h : 0 ≤ s.y) :
    0 ≤ (step p s).2.y := by
  cases ht : s.terminated with
  | true => rw [step_terminated p s ht]; exact h
  | false =>
    rcases lt_or_le (s.y + s.vy * p.dt) 0 with hc | hc
    · rw [step_cross p s ht hc]
    · rw [step_normal p s ht hc]
      have hy := (stepVel_preserves p
        { s with x := s.x + s.vx * p.dt, y := s.y + s.vy * p.dt }).2.1
      simpa [hy] using hc

/-- Every sample emitted along a run started at a state with `y ≥ 0` has a
nonnegative second coordinate. -/
theorem run_samples_nonneg (p : Params) (n : ℕ) (s : State) (h : 0 ≤ s.y) :
    ∀ q ∈ (run p n s).1, 0 ≤ q.2 := by
  induction n generalizing s with
  | zero => intro q hq; simp [run] at hq
  | succ n ih =>
    intro q hq
    rw [run_succ] at hq
    rcases List.mem_append.1 hq with hq | hq
    · cases ht : s.terminated with
      | true => rw [step_terminated p s ht] at hq; simp at hq
      | false =>
        rcases lt_or_le (s.y + s.vy * p.dt) 0 with hc | hc
        · rw [step_cross p s ht hc] at hq
          simp only [Option.toList_some, List.mem_singleton] at hq
          simp [hq]
        · rw [step_normal p s ht hc] at hq
          simp only [Option.toList_some, List.mem_singleton] at hq
          simpa [hq] using h
    · exact ih (step p s).2 (step_y_nonneg p s h) q hq

/-- A normal (non-crossing) step leaves the generator running. -/
theorem step_normal_not_terminated (p : Params) (s : State)
    (hterm : s.terminated = false) (h : 0 ≤ s.y + s.vy * p.dt) :
    (step p s).2.terminated = false := by
  rw [step_normal p s hterm h]
  have := (stepVel_preserves p
    { s with x := s.x + s.vx * p.dt, y := s.y + s.vy * p.dt }).2.2
  simpa [this]

/-- If a run from a live state has finished, its last emitted sample is the
interpolated ground-impact sample, whose `y` is exactly `0`. -/
theorem run_last_terminal (p : Params) (n : ℕ) (s : State)
    (hterm : s.terminated = false) (h : (run p n s).2.terminated = true) :
    ∃ xT : ℝ, ((run p n s).1).getLast? = some (xT, 0) := by
  induction n generalizing s with
  | zero => rw [run_zero] at h; rw [hterm] at h; cases h
  | succ n ih =>
    rcases lt_or_le (s.y + s.vy * p.dt) 0 with hc | hc
    · rw [run_succ, step_cross p s hterm hc]
      rw [run_of_terminated p n _ (by simp)]
      exact ⟨s.x + s.vx * (-s.y / s.vy), by simp⟩
    · have hterm' := step_normal_not_terminated p s hterm hc
      rw [run_succ] at h ⊢
      obtain ⟨xT, hxT⟩ := ih (step p s).2 hterm' (by simpa using h)
      refine ⟨xT, ?_⟩
      have h1 : (step p s).1 = some (s.x, s.y) := by rw [step_normal p s hterm hc]
      rw [h1]
      cases hl : (run p n (step p s).2).1 with
      | nil => rw [hl] at hxT; simp at hxT
      | cons a l =>
        rw [hl] at hxT
        simp only [Option.toList_some, List.singleton_append]
        rw [List.getLast?_cons_cons]
        exact hxT

/-! ## Evaluation of the concrete runs -/

theorem init_pDown : init pDown = ⟨0, -1, 0, 0, false⟩ := by
  have h : (90 : ℝ) * (Real.pi / 180) = Real.pi / 2 := by ring
  simp [init, h, State.mk.injEq, Real.cos_neg, Real.cos_pi_div_two, Real.sin_neg,
    Real.sin_pi_div_two, pDown]

theorem init_pUp : init pUp = ⟨0, 1, 0, 0, false⟩ := by
  have h : (90 : ℝ) * (Real.pi / 180) = Real.pi / 2 := by ring
  simp [init, h, State.mk.injEq, Real.cos_pi_div_two, Real.sin_pi_div_two, pUp]

theorem init_pFlatDrag : init pFlatDrag = ⟨1, 0, 0, 0, false⟩ := by
  have h : pFlatDrag.theta * (Real.pi / 180) = 0 := by
    show (0 : ℝ) * (Real.pi / 180) = 0
    ring
  simp [init, h, State.mk.injEq, pFlatDrag]

theorem init_pBad : init pBad = ⟨1, 0, 0, 0, false⟩ := by
  have h : pBad.theta * (Real.pi / 180) = 0 := by
    show (0 : ℝ) * (Real.pi / 180) = 0
    ring
  simp [init, h, State.mk.injEq, pBad]

theorem init_pAnom : init pAnom = ⟨0, 1, 0, 0, false⟩ := by
  have h : (90 : ℝ) * (Real.pi / 180) = Real.pi / 2 := by ring
  simp [init, h, State.mk.injEq, Real.cos_pi_div_two, Real.sin_pi_div_two, pAnom]

/-- The downward launch crosses the ground within the first step and yields
the interpolated impact point `(0, 0)` as its only sample. -/
theorem run_pDown_one :
    run pDown 1 (init pDown) = ([((0 : ℝ), (0 : ℝ))], ⟨0, -1, 0, 0, true⟩) := by
  rw [run_succ, init_pDown,
    step_cross pDown ⟨0, -1, 0, 0, false⟩ rfl (by norm_num [pDown])]
  simp [State.mk.injEq]

/-- The upward launch does not cross within the first step; the first call
emits the launch point `(0, 0)` and commits the position `(0, 1)`. -/
theorem run_pUp_one :
    run pUp 1 (init pUp) = ([((0 : ℝ), (0 : ℝ))], ⟨0, -8.81, 0, 1, false⟩) := by
  rw [run_succ, init_pUp,
    step_normal pUp ⟨0, 1, 0, 0, false⟩ rfl (by norm_num [pUp])]
  rw [stepVel_gravity pUp _ (by simp [pUp])]
  simp [State.mk.injEq, pUp, grav]
  norm_num

/-- The horizontal drag-enabled launch: the first call emits `(0, 0)` and
commits `(1, 0)`; since the committed `y` is `0`, the velocity update is the
gravity-only branch even though drag is enabled and the speed is `1`. -/
theorem run_pFlatDrag_one :
    run pFlatDrag 1 (init pFlatDrag) = ([((0 : ℝ), (0 : ℝ))], ⟨1, -9.81, 1, 0, false⟩) := by
  rw [run_succ, init_pFlatDrag,
    step_normal pFlatDrag ⟨1, 0, 0, 0, false⟩ rfl (by norm_num [pFlatDrag])]
  rw [stepVel_gravity pFlatDrag _ (by simp [pFlatDrag])]
  simp [State.mk.injEq, pFlatDrag, grav]

/-! ## The claims -/

/-- **C1**: in every reachable, still-running state whose tentative next
vertical position is negative (`y + vy*dt < 0`), the call emits the terminal
sample `(x + vx * (-y / vy), 0)` — with `y = 0` exactly — this sample is
emitted exactly once (no later call emits anything), and the run is
terminated immediately after it. -/
theorem claim_C1_exact_impact (p : Params) (s : State) (_hr : Reachable p s)
    (hterm : s.terminated = false) (h : s.y + s.vy * p.dt < 0) (n : ℕ) :
    (step p s).1 = some (s.x + s.vx * (-s.y / s.vy), 0) ∧
      (step p s).2.terminated = true ∧ (run p n (step p s).2).1 = [] := by
  rw [step_cross p s hterm h]
  refine ⟨rfl, rfl, ?_⟩
  rw [run_of_terminated p n _ rfl]

/-- Witness for C1: the straight-down launch `projectile_motion(1, -90, 1, 1, False)`
crosses the ground within the first step. -/
theorem claim_C1_exact_impact_witness :
    Reachable pDown (init pDown) ∧ (init pDown).terminated = false ∧
      (init pDown).y + (init pDown).vy * pDown.dt < 0 ∧
      ((step pDown (init pDown)).1 =
          some ((init pDown).x + (init pDown).vx * (-(init pDown).y / (init pDown).vy), 0) ∧
        (step pDown (init pDown)).2.terminated = true ∧
        (run pDown 5 (step pDown (init pDown)).2).1 = []) := by
  have hterm : (init pDown).terminated = false := by rw [init_pDown]
  have h : (init pDown).y + (init pDown).vy * pDown.dt < 0 := by
    rw [init_pDown]; norm_num [pDown]
  exact ⟨init_reachable pDown, hterm, h,
    claim_C1_exact_impact pDown (init pDown) (init_reachable pDown) hterm h 5⟩

/-- **C5**: every sample emitted over the whole run has `y ≥ 0`, and whenever
the run has terminated, its final emitted sample has `y = 0` exactly. -/
theorem claim_C5_emitted_nonneg (p : Params) (n : ℕ) :
    (∀ q ∈ (run p n (init p)).1, 0 ≤ q.2) ∧
      ((run p n (init p)).2.terminated = true →
        ∃ xT : ℝ, ((run p n (init p)).1).getLast? = some (xT, 0)) := by
  constructor
  · exact run_samples_nonneg p n (init p) (by simp [init])
  · exact run_last_terminal p n (init p) (by simp [init])

/-- Witness for C5: the one-call run of `projectile_motion(1, -90, 1, 1, False)`
emits `(0, 0)`, is terminated, and its last sample has `y = 0`. -/
theorem claim_C5_emitted_nonneg_witness :
    ((0 : ℝ), (0 : ℝ)) ∈ (run pDown 1 (init pDown)).1 ∧
      (run pDown 1 (init pDown)).2.terminated = true ∧
      (0 : ℝ) ≤ (((0 : ℝ), (0 : ℝ)) : Sample).2 ∧
      ∃ xT : ℝ, ((run pDown 1 (init pDown)).1).getLast? = some (xT, 0) := by
  have hmem : ((0 : ℝ), (0 : ℝ)) ∈ (run pDown 1 (init pDown)).1 := by
    rw [run_pDown_one]; simp
  have hterm : (run pDown 1 (init pDown)).2.terminated = true := by rw [run_pDown_one]
  exact ⟨hmem, hterm, (claim_C5_emitted_nonneg pDown 1).1 _ hmem,
    (claim_C5_emitted_nonneg pDown 1).2 hterm⟩

/-- **C6**: once the generator has produced its terminal sample (state flag
`terminated = true`), every further call returns `Done` (no sample), leaves
the state unchanged, and repeated calls keep doing so. -/
theorem claim_C6_done_idempotent (p : Params) (s : State)
    (h : s.terminated = true) (n : ℕ) :
    step p s = (none, s) ∧ run p n s = ([], s) :=
  ⟨step_terminated p s h, run_of_terminated p n s h⟩

/-- Witness for C6: the terminated state reached by
`projectile_motion(1, -90, 1, 1, False)` after its single sample. -/
theorem claim_C6_done_idempotent_witness :
    (State.mk 0 (-1) 0 0 true).terminated = true ∧
      (step pDown ⟨0, -1, 0, 0, true⟩ = (none, ⟨0, -1, 0, 0, true⟩) ∧
        run pDown 3 ⟨0, -1, 0, 0, true⟩ = ([], ⟨0, -1, 0, 0, true⟩)) :=
  ⟨rfl, claim_C6_done_idempotent pDown ⟨0, -1, 0, 0, true⟩ rfl 3⟩

/-- **C9** (implicit): with `time_step > 0`, the first sample emitted is the
launch point `(0, 0)` — both when the first tentative step stays above ground
and when it would already cross it. -/
theorem claim_C9_first_sample (p : Params) (_h : 0 < p.dt) :
    ((run p 1 (init p)).1).head? = some ((0 : ℝ), (0 : ℝ)) := by
  rw [run_succ]
  have hterm : (init p).terminated = false := by simp [init]
  rcases lt_or_le ((init p).y + (init p).vy * p.dt) 0 with hc | hc
  · rw [step_cross p (init p) hterm hc]
    simp [init]
  · rw [step_normal p (init p) hterm hc]
    simp [init]

/-- Witness for C9 at `projectile_motion(1, 90, 1, 1, False)`. -/
theorem claim_C9_first_sample_witness :
    0 < pUp.dt ∧ ((run pUp 1 (init pUp)).1).head? = some ((0 : ℝ), (0 : ℝ)) :=
  ⟨by norm_num [pUp], claim_C9_first_sample pUp (by norm_num [pUp])⟩

/-- **C10** (implicit): when the initial vertical velocity is strictly
negative and `time_step > 0`, the run emits exactly one sample, `(0, 0)`, as
its terminal sample and is then terminated: the interpolation time
`t = -y/vy` is `0` at launch, so no horizontal distance is covered. -/
theorem claim_C10_downward_single_sample (p : Params) (hv : (init p).vy < 0)
    (hdt : 0 < p.dt) (n : ℕ) (hn : 1 ≤ n) :
    (run p n (init p)).1 = [((0 : ℝ), (0 : ℝ))] ∧
      (run p n (init p)).2.terminated = true := by
  cases n with
  | zero => cases hn
  | succ m =>
    have hterm : (init p).terminated = false := by simp [init]
    have hy : (init p).y = 0 := by simp [init]
    have hx : (init p).x = 0 := by simp [init]
    have hc : (init p).y + (init p).vy * p.dt < 0 := by
      rw [hy, zero_add]; exact mul_neg_of_neg_of_pos hv hdt
    rw [run_succ, step_cross p (init p) hterm hc, run_of_terminated p m _ rfl]
    constructor
    · simp [hy, hx]
    · rfl

/-- Witness for C10 at `projectile_motion(1, -90, 1, 1, False)`. -/
theorem claim_C10_downward_single_sample_witness :
    (init pDown).vy < 0 ∧ 0 < pDown.dt ∧ 1 ≤ 1 ∧
      ((run pDown 1 (init pDown)).1 = [((0 : ℝ), (0 : ℝ))] ∧
        (run pDown 1 (init pDown)).2.terminated = true) := by
  have hv : (init pDown).vy < 0 := by rw [init_pDown]; norm_num
  have hdt : 0 < pDown.dt := by norm_num [pDown]
  exact ⟨hv, hdt, le_refl 1, claim_C10_downward_single_sample pDown hv hdt 1 (le_refl 1)⟩

/-- **C2, counterexample**: construction with `mass = 0` and `time_step = -1`
does *not* fail: `projectile_motion` performs no parameter validation, a full
integrator instance is produced (there is no failure path at all in the
source), and its first `next()` call even yields a sample. -/
theorem claim_C2_counterexample :
    init pBad = ⟨1, 0, 0, 0, false⟩ ∧ ((step pBad (init pBad)).1).isSome = true := by
  refine ⟨init_pBad, ?_⟩
  rw [init_pBad, step_normal pBad ⟨1, 0, 0, 0, false⟩ rfl (by norm_num)]
  rfl

/-- **C2** (amended): construction never validates and never fails — for
*every* parameter set, including `initial_speed ≤ 0`, `mass ≤ 0` or
`time_step ≤ 0`, an integrator instance is produced, initialized by
trigonometric decomposition at position `(0, 0)`, and its first `next()`
call yields a sample. -/
theorem claim_C2_no_validation (p : Params) :
    init p = ⟨p.v0 * Real.cos (p.theta * (Real.pi / 180)),
        p.v0 * Real.sin (p.theta * (Real.pi / 180)), 0, 0, false⟩ ∧
      ((step p (init p)).1).isSome = true := by
  refine ⟨rfl, ?_⟩
  have hterm : (init p).terminated = false := by simp [init]
  rcases lt_or_le ((init p).y + (init p).vy * p.dt) 0 with hc | hc
  · rw [step_cross p (init p) hterm hc]; rfl
  · rw [step_normal p (init p) hterm hc]; rfl

/-- **C3, counterexample**: in the run `projectile_motion(1, 0, 1, 1, True)`,
after the first non-terminal step commit drag is enabled and the speed is
`√(1² + 0²) = 1 ≠ 0`, yet the committed `vx` is still `1` (the gravity-only
branch ran, because the committed `y` is `0`), whereas the claimed drag
update would have changed `vx` to `1 - (a/v)*vx*dt ≠ 1`. -/
theorem claim_C3_counterexample :
    pFlatDrag.include_drag = true ∧
      (run pFlatDrag 1 (init pFlatDrag)).2 = ⟨1, -9.81, 1, 0, false⟩ ∧
      Real.sqrt ((1 : ℝ) ^ 2 + 0 ^ 2) = 1 ∧
      (1 : ℝ) ≠ 1 - (0.5 * 1.225 * 0.045 * 0.47 * (1 : ℝ) ^ 2 / 1) / 1 * 1 * 1 := by
  refine ⟨rfl, run_pFlatDrag_one ▸ rfl, ?_, by norm_num⟩
  rw [show ((1 : ℝ) ^ 2 + 0 ^ 2) = 1 by norm_num, Real.sqrt_one]

/-- **C3** (amended): after a non-terminal step commit the velocity update is
keyed on the *committed vertical position*, not on the speed: the gravity-only
update (`vy -= g*dt`, `vx` unchanged) runs whenever drag is disabled *or* the
committed `y ≤ 0` (even at nonzero speed), and the drag update with
`v = √(vx² + vy²)`, `a = (0.5*rho*A*C_d*v²)/mass` runs exactly when drag is
enabled and the committed `y > 0` — with no `v ≠ 0` guard at all. -/
theorem claim_C3_velocity_update (p : Params) (s : State)
    (hterm : s.terminated = false) (hnc : 0 ≤ s.y + s.vy * p.dt) :
    ((p.include_drag = false ∨ s.y + s.vy * p.dt ≤ 0) →
        (step p s).2.vx = s.vx ∧ (step p s).2.vy = s.vy - grav * p.dt) ∧
      (p.include_drag = true → 0 < s.y + s.vy * p.dt →
        (step p s).2.vx = s.vx -
            (0.5 * 1.225 * 0.045 * 0.47 * Real.sqrt (s.vx ^ 2 + s.vy ^ 2) ^ 2 / p.mass) /
              Real.sqrt (s.vx ^ 2 + s.vy ^ 2) * s.vx * p.dt ∧
          (step p s).2.vy = s.vy -
            (grav + (0.5 * 1.225 * 0.045 * 0.47 * Real.sqrt (s.vx ^ 2 + s.vy ^ 2) ^ 2 / p.mass) /
                Real.sqrt (s.vx ^ 2 + s.vy ^ 2) * s.vy) * p.dt) := by
  rw [step_normal p s hterm hnc]
  constructor
  · intro h
    rw [stepVel_gravity p _ ?_]
    · exact ⟨rfl, rfl⟩
    · rcases h with h | h
      · rintro ⟨hd, -⟩
        rw [h] at hd
        cases hd
      · rintro ⟨-, hy⟩
        exact absurd h (not_le.2 hy)
  · intro hd hy
    rw [stepVel_drag p _ hd hy]
    exact ⟨rfl, rfl⟩

/-- Witness for the amended C3 at `projectile_motion(1, 0, 1, 1, True)`:
drag enabled, committed `y = 0`, so the committed velocity is the
gravity-only update. -/
theorem claim_C3_velocity_update_witness :
    (init pFlatDrag).terminated = false ∧
      0 ≤ (init pFlatDrag).y + (init pFlatDrag).vy * pFlatDrag.dt ∧
      ((init pFlatDrag).y + (init pFlatDrag).vy * pFlatDrag.dt ≤ 0) ∧
      ((step pFlatDrag (init pFlatDrag)).2.vx = (init pFlatDrag).vx ∧
        (step pFlatDrag (init pFlatDrag)).2.vy =
          (init pFlatDrag).vy - grav * pFlatDrag.dt) := by
  have hterm : (init pFlatDrag).terminated = false := by rw [init_pFlatDrag]
  have hnc : 0 ≤ (init pFlatDrag).y + (init pFlatDrag).vy * pFlatDrag.dt := by
    rw [init_pFlatDrag]; norm_num
  have hle : (init pFlatDrag).y + (init pFlatDrag).vy * pFlatDrag.dt ≤ 0 := by
    rw [init_pFlatDrag]; norm_num
  exact ⟨hterm, hnc, hle,
    (claim_C3_velocity_update pFlatDrag (init pFlatDrag) hterm hnc).1 (Or.inr hle)⟩

/-- **C4, counterexample**: in the run `projectile_motion(1, 90, 1, 1, False)`
the first step does not cross the ground; it emits `(0, 0)` — the position
held *before* the step — while the newly committed position is `(0, 1)`,
which differs. -/
theorem claim_C4_counterexample :
    (run pUp 1 (init pUp)).1 = [((0 : ℝ), (0 : ℝ))] ∧
      (run pUp 1 (init pUp)).2.x = 0 ∧ (run pUp 1 (init pUp)).2.y = 1 ∧
      (((0 : ℝ), (0 : ℝ)) : Sample) ≠ ((0 : ℝ), (1 : ℝ)) := by
  rw [run_pUp_one]
  have hne : ((0 : ℝ)) ≠ (1 : ℝ) := by norm_num
  exact ⟨rfl, rfl, rfl, fun hq => hne (congrArg Prod.snd hq)⟩

/-- **C4** (amended): in every step whose tentative next position does not
cross the ground, the emitted sample is the position held *before* the step;
the integrator then commits `(next_x, next_y) = (x + vx*dt, y + vy*dt)` as
its new position (to be emitted by the following call). -/
theorem claim_C4_emits_precommit (p : Params) (s : State)
    (hterm : s.terminated = false) (hnc : 0 ≤ s.y + s.vy * p.dt) :
    (step p s).1 = some (s.x, s.y) ∧
      (step p s).2.x = s.x + s.vx * p.dt ∧ (step p s).2.y = s.y + s.vy * p.dt := by
  rw [step_normal p s hterm hnc]
  refine ⟨rfl, ?_, ?_⟩
  · exact (stepVel_preserves p _).1
  · exact (stepVel_preserves p _).2.1

/-- Witness for the amended C4 at `projectile_motion(1, 90, 1, 1, False)`. -/
theorem claim_C4_emits_precommit_witness :
    (init pUp).terminated = false ∧
      0 ≤ (init pUp).y + (init pUp).vy * pUp.dt ∧
      ((step pUp (init pUp)).1 = some ((init pUp).x, (init pUp).y) ∧
        (step pUp (init pUp)).2.x = (init pUp).x + (init pUp).vx * pUp.dt ∧
        (step pUp (init pUp)).2.y = (init pUp).y + (init pUp).vy * pUp.dt) := by
  have hterm : (init pUp).terminated = false := by rw [init_pUp]
  have hnc : 0 ≤ (init pUp).y + (init pUp).vy * pUp.dt := by
    rw [init_pUp]; norm_num [pUp]
  exact ⟨hterm, hnc, claim_C4_emits_precommit pUp (init pUp) hterm hnc⟩

/-- **C7, counterexample**: in the run `projectile_motion(1, 90, 1, -1, False)`
the very first step detects a ground crossing (`next_y = -1 < 0`) while the
current vertical velocity is `vy = 1 ≥ 0`, yet the call does not fail in any
way: it yields a terminal sample and marks the run terminated.  The source has
no `DegenerateState` (indeed no failure path at all) in `next()`. -/
theorem claim_C7_counterexample :
    (init pAnom).y + (init pAnom).vy * pAnom.dt < 0 ∧
      0 ≤ (init pAnom).vy ∧
      ((step pAnom (init pAnom)).1).isSome = true ∧
      (step pAnom (init pAnom)).2.terminated = true := by
  have hc : (init pAnom).y + (init pAnom).vy * pAnom.dt < 0 := by
    rw [init_pAnom]; norm_num [pAnom]
  have hterm : (init pAnom).terminated = false := by rw [init_pAnom]
  refine ⟨hc, ?_, ?_, ?_⟩
  · rw [init_pAnom]; norm_num
  · rw [step_cross pAnom (init pAnom) hterm hc]; rfl
  · rw [step_cross pAnom (init pAnom) hterm hc]

/-- **C7** (amended): the code never raises `DegenerateState`; instead, the
anomalous situation cannot arise in normal operation: for a positive time
step and a state with `y ≥ 0` (an invariant of every run), a detected ground
crossing forces `vy < 0`, so `t = -y/vy` is well-defined, and the call simply
yields the terminal sample. -/
theorem claim_C7_crossing_implies_descending (p : Params) (s : State)
    (hdt : 0 < p.dt) (hy : 0 ≤ s.y) (h : s.y + s.vy * p.dt < 0) :
    s.vy < 0 ∧ (s.terminated = false →
      ((step p s).1).isSome = true ∧ (step p s).2.terminated = true) := by
  have hvy : s.vy < 0 := by
    by_contra hge
    push_neg at hge
    nlinarith [mul_nonneg hge hdt.le]
  refine ⟨hvy, fun hterm => ?_⟩
  rw [step_cross p s hterm h]
  exact ⟨rfl, rfl⟩

/-- Witness for the amended C7 at `projectile_motion(1, -90, 1, 1, False)`. -/
theorem claim_C7_crossing_implies_descending_witness :
    0 < pDown.dt ∧ 0 ≤ (init pDown).y ∧
      (init pDown).y + (init pDown).vy * pDown.dt < 0 ∧
      ((init pDown).vy < 0 ∧ ((init pDown).terminated = false →
        ((step pDown (init pDown)).1).isSome = true ∧
          (step pDown (init pDown)).2.terminated = true)) := by
  have hdt : 0 < pDown.dt := by norm_num [pDown]
  have hy : 0 ≤ (init pDown).y := by rw [init_pDown]
  have hc : (init pDown).y + (init pDown).vy * pDown.dt < 0 := by
    rw [init_pDown]; norm_num [pDown]
  exact ⟨hdt, hy, hc,
    claim_C7_crossing_implies_descending pDown (init pDown) hdt hy hc⟩

/-! ## Termination of the drag-free integrator

Without drag the velocity update is exactly `vy -= g*dt` every step, so the
state admits a closed form while the run is live, and the quadratic fall of
`y` forces a ground crossing.  (The drag-enabled case at arbitrary `dt` is a
genuinely harder dynamical question and is not settled here.) -/

theorem run_add (p : Params) (m n : ℕ) (s : State) :
    run p (m + n) s =
      ((run p m s).1 ++ (run p n (run p m s).2).1, (run p n (run p m s).2).2) := by
  induction m generalizing s with
  | zero => simp
  | succ m ih =>
    have hmn : m + 1 + n = (m + n) + 1 := by omega
    rw [hmn, run_succ, ih (step p s).2, run_succ]
    simp

theorem run_succ_right (p : Params) (n : ℕ) (s : State) :
    (run p (n + 1) s).2 = (step p (run p n s).2).2 := by
  rw [run_add p n 1 s]; rfl

/-- Termination is absorbing across any number of further calls. -/
theorem terminated_persists (p : Params) (m n : ℕ) (s : State)
    (h : (run p m s).2.terminated = true) (hmn : m ≤ n) :
    (run p n s).2.terminated = true := by
  obtain ⟨k, rfl⟩ := Nat.exists_eq_add_of_le hmn
  rw [run_add p m k s, run_of_terminated p k _ h]
  exact h

theorem run_y_nonneg (p : Params) (n : ℕ) (s : State) (h : 0 ≤ s.y) :
    0 ≤ (run p n s).2.y := by
  induction n generalizing s with
  | zero => simpa
  | succ n ih => rw [run_succ]; exact ih _ (step_y_nonneg p s h)

/-- Closed form of the drag-free state while the run is still live:
`vy` falls linearly, `y` is the discrete quadratic. -/
theorem noDrag_state_closed (p : Params) (hdrag : p.include_drag = false) (k : ℕ)
    (h : (run p k (init p)).2.terminated = false) :
    (run p k (init p)).2.vy = (init p).vy - (k : ℝ) * grav * p.dt ∧
      (run p k (init p)).2.y = (k : ℝ) * (init p).vy * p.dt -
        (k : ℝ) * ((k : ℝ) - 1) / 2 * grav * p.dt ^ 2 := by
  induction k with
  | zero => constructor <;> · simp [init]
  | succ k ih =>
    have hk : (run p k (init p)).2.terminated = false := by
      rcases hB : (run p k (init p)).2.terminated with _ | _
      · rfl
      · have := terminated_persists p k (k + 1) (init p) hB (by omega)
        rw [h] at this
        cases this
    obtain ⟨hvy, hy⟩ := ih hk
    rcases lt_or_le ((run p k (init p)).2.y + (run p k (init p)).2.vy * p.dt) 0 with hc | hnc
    · exfalso
      rw [run_succ_right, step_cross p _ hk hc] at h
      simp at h
    · rw [run_succ_right, step_normal p _ hk hnc,
        stepVel_gravity p _ (by rw [hdrag]; rintro ⟨hd, -⟩; cases hd)]
      constructor
      · show (run p k (init p)).2.vy - grav * p.dt = _
        rw [hvy]; push_cast; ring
      · show (run p k (init p)).2.y + (run p k (init p)).2.vy * p.dt = _
        rw [hy, hvy]; push_cast; ring

/-- **Drag-free termination**: with `include_drag = False` and any positive
time step, the run reaches its terminal sample after finitely many calls. -/
theorem noDrag_terminates (p : Params) (hdrag : p.include_drag = false)
    (hdt : 0 < p.dt) :
    ∃ n : ℕ, (run p n (init p)).2.terminated = true := by
  have hg : (0 : ℝ) < grav := by norm_num [grav]
  obtain ⟨N, hN⟩ := exists_nat_gt (max (2 * (init p).vy / (grav * p.dt) + 1) 1)
  refine ⟨N, ?_⟩
  by_contra hh
  rw [Bool.not_eq_true] at hh
  obtain ⟨hvy, hy⟩ := noDrag_state_closed p hdrag N hh
  have hynn : 0 ≤ (run p N (init p)).2.y := run_y_nonneg p N (init p) (by simp [init])
  rw [hy] at hynn
  have h1 : (1 : ℝ) ≤ (N : ℝ) := le_of_lt (lt_of_le_of_lt (le_max_right _ _) hN)
  have h2 : 2 * (init p).vy / (grav * p.dt) + 1 < (N : ℝ) :=
    lt_of_le_of_lt (le_max_left _ _) hN
  have hgd : 0 < grav * p.dt := mul_pos hg hdt
  have h3 : 2 * (init p).vy < ((N : ℝ) - 1) * (grav * p.dt) := by
    have := (div_lt_iff₀ hgd).1 (by linarith : 2 * (init p).vy / (grav * p.dt) < (N : ℝ) - 1)
    linarith
  have hN0 : (0 : ℝ) < (N : ℝ) := by linarith
  have hNdt : (0 : ℝ) < (N : ℝ) * p.dt := mul_pos hN0 hdt
  have h4 : (N : ℝ) * p.dt / 2 * (2 * (init p).vy) <
      (N : ℝ) * p.dt / 2 * (((N : ℝ) - 1) * (grav * p.dt)) :=
    mul_lt_mul_of_pos_left h3 (by linarith)
  nlinarith [hynn, h4]

end ProjectileSim
